import Mathlib

/-!
Verification of the tantabus chess engine core against its specification.

The relevant Rust sources are shallowly embedded below:
machine integers become `Int`/`Nat` with explicit clamping or `% 2^w`
where overflow matters, structs become structures, and fallible code
returns `Option`/`Except`.
-/

/- ### `Eval` (src/engine/src/eval/mod.rs)

`Eval` is a transparent wrapper over `i16`; we embed it as the wrapped
integer value itself, keeping the i16 range explicit in hypotheses. -/

/- An `Eval` value, i.e. the wrapped `i16`, is embedded as a mathematical
integer (`Int`); the `EvalV` namespace holds its operations. -/

/-- `i16::MAX`. -/
def i16Max : Int := 32767

/-- `i16::MIN`. -/
def i16Min : Int := -32768

/-- `v` is representable as an `i16`. -/
def i16Range (v : Int) : Prop := i16Min ≤ v ∧ v ≤ i16Max

instance (v : Int) : Decidable (i16Range v) := by
  unfold i16Range; infer_instance

namespace EvalV

/-- `Eval::MAX = Self(i16::MAX)`. -/
def MAX : Int := i16Max

/-- `Eval::MIN = Self(-Self::MAX.0)`. -/
def MIN : Int := -MAX

/-- `Eval::ZERO`. -/
def ZERO : Int := 0

/-- `Eval::DRAW = Self::ZERO`. -/
def DRAW : Int := ZERO

/-- `Eval::MATE_IN_ZERO = Self(i16::MAX - 100)`. -/
def MATE_IN_ZERO : Int := i16Max - 100

/-- `Eval::cp(centipawns)`. -/
def cp (centipawns : Int) : Int := centipawns

/-- `Eval::mate_in(plies_to_mate)`; the argument is a `u8` (`0 ≤ p ≤ 255`). -/
def mate_in (plies_to_mate : Nat) : Int := MATE_IN_ZERO - plies_to_mate

/-- `Eval::mated_in(plies_to_mate)`. -/
def mated_in (plies_to_mate : Nat) : Int := -(mate_in plies_to_mate)

/-- The three `EvalKind` variants (`src/engine/src/eval/mod.rs`). -/
inductive Kind where
  | Centipawn (v : Int)
  | MateIn (p : Nat)
  | MatedIn (p : Nat)
deriving DecidableEq, Repr

/-- `Eval::kind`.  The source casts the distances with `as u8`, which wraps
modulo 256: it is the identity whenever the matched value lies within 255 of
the corresponding bound, but the raw `i16` values beyond `mate_in 0`
(`32668..=32767`) and beyond `mated_in 0` (`-32768..=-32668`) wrap to
distances in `155..=255`. -/
def kind (v : Int) : Kind :=
  if v ≥ mate_in 255 then .MateIn ((mate_in 0 - v) % 256).toNat
  else if v ≤ mated_in 255 then .MatedIn ((v - mated_in 0) % 256).toNat
  else .Centipawn v

/-- `i16::saturating_*`: clamp a mathematical-integer result into the
`i16` range. -/
def satI16 (v : Int) : Int :=
  if v < i16Min then i16Min else if i16Max < v then i16Max else v

/-- `Eval::saturating_sub`: saturating `i16` subtraction, bumped by one when
it would produce `i16::MIN`. -/
def saturating_sub (a b : Int) : Int :=
  let result := satI16 (a - b)
  if result = i16Min then result + 1 else result

/-- `Eval::saturating_add` (plain saturating `i16` addition, via the
`impl_saturating_math_ops!` macro). -/
def saturating_add (a b : Int) : Int :=
  satI16 (a + b)

end EvalV

/- ### Chess base types (mirroring the `cozy_chess` vocabulary used by the
engine: `Color`, `Piece`, `Square`). `cozy_chess` is an external dependency
whose sources are not part of this repository; these types are the standard
chess vocabulary the spec assumes ("chess rules are assumed available from an
external move-generator library"). -/

/-- `cozy_chess::Color`. -/
inductive ColorT where
  | white
  | black
deriving DecidableEq, Repr

/-- `!color` (`std::ops::Not for Color`). -/
def ColorT.opp : ColorT → ColorT
  | .white => .black
  | .black => .white

instance : Fintype ColorT :=
  ⟨⟨{.white, .black}, by decide⟩, by intro c; cases c <;> decide⟩

/-- `cozy_chess::Piece`, in the declaration order used by `Piece::ALL`. -/
inductive PieceT where
  | pawn
  | knight
  | bishop
  | rook
  | queen
  | king
deriving DecidableEq, Repr

instance : Fintype PieceT :=
  ⟨⟨{.pawn, .knight, .bishop, .rook, .queen, .king}, by decide⟩,
   by intro p; cases p <;> decide⟩

/-- `piece as usize` (the discriminant, in declaration order). -/
def PieceT.idx : PieceT → Nat
  | .pawn => 0
  | .knight => 1
  | .bishop => 2
  | .rook => 3
  | .queen => 4
  | .king => 5

/-- `Piece::try_index` restricted to indices `< 6` (it returns `None`
otherwise; the caller below checks the sentinel first). -/
def pieceOfIdx : Nat → PieceT
  | 0 => .pawn
  | 1 => .knight
  | 2 => .bishop
  | 3 => .rook
  | 4 => .queen
  | _ => .king

/-- `cozy_chess::Square`, as a file/rank pair. `square as usize` is
`rank * 8 + file`, and `flip_rank` mirrors the rank. -/
structure SquareT where
  file : Fin 8
  rank : Fin 8
deriving DecidableEq, Repr

instance : Fintype SquareT :=
  ⟨(Finset.univ ×ˢ Finset.univ).image fun p : Fin 8 × Fin 8 => SquareT.mk p.1 p.2,
   by
     intro sq
     exact Finset.mem_image.mpr ⟨(sq.file, sq.rank), Finset.mem_product.mpr ⟨Finset.mem_univ _, Finset.mem_univ _⟩, rfl⟩⟩

/-- `square as usize` (cozy_chess orders squares rank-major: A1 = 0, B1 = 1, …). -/
def SquareT.idx (sq : SquareT) : Nat := sq.rank.val * 8 + sq.file.val

/-- `Square::flip_rank`. -/
def SquareT.flip_rank (sq : SquareT) : SquareT := ⟨sq.file, sq.rank.rev⟩

/-- `Rank::relative_to(color)`: ranks are unchanged for White and mirrored
for Black (`Rank::Third.relative_to(Color::Black)` is the sixth rank). -/
def relRank (c : ColorT) (r : Fin 8) : Fin 8 :=
  match c with
  | .white => r
  | .black => r.rev

/- ### Static exchange evaluation (src/engine/src/search/moves/see.rs)

The board-dependent part of `inner_see` — which attacker the
least-valuable-attacker scan picks each iteration, with x-ray re-reveals —
does not depend on the `THRESHOLD` parameter: the loop body only reads the
threshold in the early-exit check at the top of each iteration.  We therefore
embed the exchange abstractly over the chronological list `atks` of attacker
pieces the scan would select on the given board (the quantification over all
such lists subsumes the quantification over boards and capture moves). -/

/-- `piece_value` from `src/engine/src/search/moves/see.rs` (note
`Piece::King => 20_000`: "King capture is legal in SEE's simulation"). -/
def piece_value : PieceT → Int
  | .pawn => 100
  | .knight => 320
  | .bishop => 330
  | .rook => 500
  | .queen => 900
  | .king => 20000

/-- `NO_THRESHOLD: i16 = i16::MIN`. -/
def NO_THRESHOLD : Int := i16Min

/-- The sequence of victim values pushed onto the `gains` stack by the
`'exchange` loop of `inner_see`, after the initial `gains.push(balance)`.
`ourTurn` is `color == initial_color`, `balance` and `target` are the loop
variables, and `atks` is the chronological list of attackers the
least-valuable-attacker scan selects (see the section comment).  Each
iteration first evaluates the threshold cutoff, then pushes
`piece_value(target_piece)`, updates the balance, and stops after a king
was captured. -/
def seeGains (T : Int) (ourTurn : Bool) (balance : Int) (target : PieceT) :
    List PieceT → List Int
  | [] => []
  | a :: rest =>
    if T ≠ NO_THRESHOLD ∧ (if ourTurn then T ≤ balance else balance < T) then
      []
    else
      let victimValue := piece_value target
      if target = .king then
        [victimValue]
      else
        victimValue ::
          seeGains T (!ourTurn)
            (if ourTurn then balance + victimValue else balance - victimValue)
            a rest

/-- Same recursion as `seeGains`, returning the victim pieces themselves
rather than their values (used to state what the pushes are). -/
def seeVictims (T : Int) (ourTurn : Bool) (balance : Int) (target : PieceT) :
    List PieceT → List PieceT
  | [] => []
  | a :: rest =>
    if T ≠ NO_THRESHOLD ∧ (if ourTurn then T ≤ balance else balance < T) then
      []
    else
      if target = .king then
        [target]
      else
        target ::
          seeVictims T (!ourTurn)
            (if ourTurn then balance + piece_value target
             else balance - piece_value target)
            a rest

/-- The final while-loop of `inner_see`, processing the gain stack from the
right: each `gains.pop()` folds the popped value into the new last element,
clamping negative results to zero except in the final (`forced`) step.
`declineFold [g_i, …, g_m]` is the value position `i ≥ 1` holds once
everything to its right has been folded in. -/
def declineFold : List Int → Int
  | [] => 0
  | [g] => g
  | g :: rest => max (g - declineFold rest) 0

/-- The result of the gain-stack resolution: the bottom element absorbs the
folded remainder without clamping (the first capture is forced). -/
def resolveGains : List Int → Int
  | [] => 0
  | g :: rest => g - declineFold rest

/-- `inner_see::<THRESHOLD>(board, capture)`.  `initialCapture` is
`board.piece_on(capture.to)`, `mover` is `board.piece_on(capture.from)`;
`atks` abstracts the board (see the section comment). -/
def inner_see (T : Int) (initialCapture mover : PieceT) (atks : List PieceT) :
    Int :=
  let balance := piece_value initialCapture
  resolveGains (balance :: seeGains T false balance mover atks)

/-- `static_exchange_evaluation(board, capture)`. -/
def static_exchange_evaluation (initialCapture mover : PieceT)
    (atks : List PieceT) : Int :=
  inner_see NO_THRESHOLD initialCapture mover atks

/-- `static_exchange_evaluation_above::<THRESHOLD>(board, capture)`. -/
def static_exchange_evaluation_above (T : Int) (initialCapture mover : PieceT)
    (atks : List PieceT) : Bool :=
  EvalV.cp T ≤ inner_see T initialCapture mover atks

/-- The alternating AND/OR chain `B₀ ∧ (B₁ ∨ (B₂ ∧ …))` over the running
balances `Bⱼ = (T ≤ bⱼ)`; proved below to decide `T ≤ resolveGains`.
`ourLevel` tells whose capture the next list element is. -/
def seeChain (T : Int) (ourLevel : Bool) (b : Int) : List Int → Bool
  | [] => decide (T ≤ b)
  | g :: rest =>
    match ourLevel with
    | true => decide (T ≤ b) || seeChain T false (b + g) rest
    | false => decide (T ≤ b) && seeChain T true (b - g) rest

/- ### `PieceEvalSet` / `PIECE_VALUES` (src/engine/src/eval/eval_consts.rs)

`PieceEvalSet` itself is declared in `eval/eval_set.rs`, which is absent
from the source tree.  Modelled from the spec: a per-piece record of values,
`get` selecting the field for a piece. -/

structure PieceEvalSet (α : Type) where
  pawn : α
  knight : α
  bishop : α
  rook : α
  queen : α
  king : α

/-- `PieceEvalSet::get` (field selection by piece). -/
def PieceEvalSet.get {α : Type} (s : PieceEvalSet α) : PieceT → α
  | .pawn => s.pawn
  | .knight => s.knight
  | .bishop => s.bishop
  | .rook => s.rook
  | .queen => s.queen
  | .king => s.king

/-- `PIECE_VALUES` from `src/engine/src/eval/eval_consts.rs`. -/
def PIECE_VALUES : PieceEvalSet Int :=
  { pawn := 100, knight := 320, bishop := 330, rook := 500, queen := 900,
    king := 0 }

/- ### Board model

`cozy_chess::Board` and its `play_unchecked` are an external dependency not
present under `src/`.  Modelled from the spec: piece placement, side to move
and the en-passant file, with `play_unchecked` applying a move per the chess
rules the spec assumes (castling is encoded king-takes-own-rook, as the
spec's castling note requires; a double push records the en-passant file;
an en-passant capture removes the passed pawn).  Castling rights and move
clocks are omitted: no claim reads them through this model. -/

/-- A chess move as the engine sees it (`cozy_chess::Move`): `fromSq`/`toSq`
are the source's `mv.from`/`mv.to`. -/
structure MoveT where
  fromSq : SquareT
  toSq : SquareT
  promotion : Option PieceT
deriving DecidableEq, Repr

/-- The board state consumed by the engine. -/
structure BoardM where
  placement : SquareT → Option (ColorT × PieceT)
  sideToMove : ColorT
  enPassant : Option (Fin 8)

/-- `board.colors(c) & board.pieces(p)` as a set of squares. -/
def colorsPieces (b : BoardM) (c : ColorT) (p : PieceT) : Finset SquareT :=
  Finset.univ.filter fun sq => b.placement sq = some (c, p)

/-- The en-passant destination square:
`Square::new(ep, Rank::Third.relative_to(!board.side_to_move()))`
(as computed in `Position::play_unchecked`). -/
def epSquareOf (b : BoardM) : Option SquareT :=
  b.enPassant.map fun f => ⟨f, relRank b.sideToMove.opp 2⟩

/-- The square of the pawn removed by an en-passant capture (the
double-pushed pawn one rank behind the destination). -/
def epVictimSq (b : BoardM) (mv : MoveT) : SquareT :=
  ⟨mv.toSq.file, relRank b.sideToMove 4⟩

/-- `Rank::First.relative_to(color)`. -/
def backRank (c : ColorT) : Fin 8 := relRank c 0

/-- Where the king lands when castling (file g for kingside, c for
queenside; cozy_chess encodes castling as king-takes-own-rook, kingside
iff the rook square is on a higher file). -/
def castleKingDest (b : BoardM) (mv : MoveT) : SquareT :=
  ⟨if mv.fromSq.file < mv.toSq.file then 6 else 2, backRank b.sideToMove⟩

/-- Where the rook lands when castling (file f kingside, d queenside). -/
def castleRookDest (b : BoardM) (mv : MoveT) : SquareT :=
  ⟨if mv.fromSq.file < mv.toSq.file then 5 else 3, backRank b.sideToMove⟩

/-- Modelled from the spec: `cozy_chess::Board::play_unchecked` (external
library), at the level of piece placement.  A move with no piece on its
source square leaves the board unchanged (the engine never plays one). -/
def BoardM.playUnchecked (b : BoardM) (mv : MoveT) : BoardM :=
  match b.placement mv.fromSq with
  | none => b
  | some (_, moved) =>
    let us := b.sideToMove
    if moved = .king ∧ b.placement mv.toSq = some (us, .rook) then
      { placement := fun sq =>
          if sq = castleKingDest b mv then some (us, .king)
          else if sq = castleRookDest b mv then some (us, .rook)
          else if sq = mv.fromSq ∨ sq = mv.toSq then none
          else b.placement sq,
        sideToMove := us.opp,
        enPassant := none }
    else if moved = .pawn ∧ epSquareOf b = some mv.toSq then
      { placement := fun sq =>
          if sq = mv.toSq then some (us, .pawn)
          else if sq = mv.fromSq ∨ sq = epVictimSq b mv then none
          else b.placement sq,
        sideToMove := us.opp,
        enPassant := none }
    else
      { placement := fun sq =>
          if sq = mv.toSq then some (us, mv.promotion.getD moved)
          else if sq = mv.fromSq then none
          else b.placement sq,
        sideToMove := us.opp,
        enPassant :=
          if moved = .pawn ∧ mv.fromSq.rank = relRank us 1 ∧
              mv.toSq.rank = relRank us 3 ∧ mv.fromSq.file = mv.toSq.file then
            some mv.fromSq.file
          else none }

/-- The properties of a legal move that the correctness of the incremental
NNUE update rests on; every move legal in chess satisfies them.  In order:
the mover belongs to the side to move; the destination holds no piece of the
moving side except a castling rook; promotions promote a pawn to a
non-pawn, non-king piece; an en-passant destination square is empty and the
captured pawn stands on the skipped square; castling starts and ends on the
back rank with free destination squares. -/
def WfMove (b : BoardM) (mv : MoveT) : Prop :=
  ∃ moved, b.placement mv.fromSq = some (b.sideToMove, moved) ∧
    (∀ c2 p2, b.placement mv.toSq = some (c2, p2) →
      c2 = b.sideToMove.opp ∨ (moved = .king ∧ c2 = b.sideToMove ∧ p2 = .rook)) ∧
    (∀ p, mv.promotion = some p → moved = .pawn ∧ p ≠ .pawn ∧ p ≠ .king) ∧
    (moved = .pawn → epSquareOf b = some mv.toSq →
      b.placement mv.toSq = none ∧
      b.placement (epVictimSq b mv) = some (b.sideToMove.opp, .pawn)) ∧
    (moved = .king → ∀ p2, b.placement mv.toSq = some (b.sideToMove, p2) →
      mv.fromSq.rank = backRank b.sideToMove ∧
      mv.toSq.rank = backRank b.sideToMove ∧
      ∀ sq, (sq = castleKingDest b mv ∨ sq = castleRookDest b mv) →
        sq ≠ mv.fromSq → sq ≠ mv.toSq → b.placement sq = none)

set_option synthInstance.maxSize 2000 in
set_option synthInstance.maxHeartbeats 2000000 in
instance (b : BoardM) (mv : MoveT) : Decidable (WfMove b mv) := by
  unfold WfMove; infer_instance

/-- A sequence of moves each well-formed on the board it is played from. -/
def WfSeq : BoardM → List MoveT → Prop
  | _, [] => True
  | b, mv :: rest => WfMove b mv ∧ WfSeq (b.playUnchecked mv) rest

instance instDecidableWfSeq : ∀ (mvs : List MoveT) (b : BoardM),
    Decidable (WfSeq b mvs)
  | [], _ => isTrue trivial
  | mv :: rest, b =>
    @instDecidableAnd _ _ _ (instDecidableWfSeq rest (b.playUnchecked mv))

/- ### NNUE (src/engine/src/nnue/mod.rs, src/engine/src/nnue/layers.rs)

The accumulator entries are `i16` with wrapping arithmetic; we embed them as
`ZMod 65536` (the two's-complement bit pattern), so that equality is exactly
the claim's byte-equality.  `FT_OUT = 256`.  The output head (`l1`,
`evaluate`) plays no part in the accumulator claims and is omitted. -/

/-- An `i16` accumulator entry as its 16-bit pattern. -/
abbrev AccEntry := ZMod 65536

/-- `BitLinear<FEATURES, FT_OUT>`: per-feature weight rows and biases.  The
weight matrix comes from the embedded model blob; it stays abstract. -/
structure BitLinearM where
  weights : Nat → Fin 256 → AccEntry
  biases : Fin 256 → AccEntry

/-- The part of `Nnue` the accumulator uses. -/
structure NnueM where
  ft : BitLinearM

/-- `color as usize`. -/
def ColorT.idx : ColorT → Nat
  | .white => 0
  | .black => 1

/-- `nnue::feature(perspective, color, piece, square)`. -/
def feature (perspective color : ColorT) (piece : PieceT) (square : SquareT) :
    Nat :=
  let sc : SquareT × ColorT :=
    match perspective with
    | .white => (square, color)
    | .black => (square.flip_rank, color.opp)
  (sc.2.idx * 6 + piece.idx) * 64 + sc.1.idx

/-- `NnueState`: one accumulator per perspective. -/
structure NnueStateM where
  accumulator : ColorT → Fin 256 → AccEntry

/-- `Nnue::new_state`: both accumulators start at the biases
(`self.ft.empty(...)`). -/
def NnueM.new_state (m : NnueM) : NnueStateM :=
  ⟨fun _ => m.ft.biases⟩

/-- `NnueState::add`: add the feature's weight row to both perspectives. -/
def NnueStateM.add (st : NnueStateM) (m : NnueM) (color : ColorT)
    (piece : PieceT) (square : SquareT) : NnueStateM :=
  ⟨fun persp i =>
    st.accumulator persp i + m.ft.weights (feature persp color piece square) i⟩

/-- `NnueState::sub`: subtract the feature's weight row from both
perspectives. -/
def NnueStateM.sub (st : NnueStateM) (m : NnueM) (color : ColorT)
    (piece : PieceT) (square : SquareT) : NnueStateM :=
  ⟨fun persp i =>
    st.accumulator persp i - m.ft.weights (feature persp color piece square) i⟩

/- ### `Position` (src/engine/src/search/position.rs) -/

/-- `Color::ALL`. -/
def colorAll : List ColorT := [.white, .black]

/-- `Piece::ALL`. -/
def pieceAll : List PieceT := [.pawn, .knight, .bishop, .rook, .queen, .king]

/-- All squares in bitboard iteration order (ascending index). -/
def allSquares : List SquareT :=
  (List.finRange 8).flatMap fun r => (List.finRange 8).map fun f => ⟨f, r⟩

/-- The squares of `board.colors(c) & board.pieces(p)` in iteration order. -/
def squaresOf (b : BoardM) (c : ColorT) (p : PieceT) : List SquareT :=
  allSquares.filter fun sq => decide (b.placement sq = some (c, p))

/-- `Position`: a board plus its NNUE accumulator pair. -/
structure PositionM where
  board : BoardM
  nnue_state : NnueStateM

/-- `Position::new`: rebuild the accumulator from scratch by adding a
feature for every piece on the board. -/
def PositionM.new (m : NnueM) (board : BoardM) : PositionM :=
  ⟨board,
    colorAll.foldl
      (fun st c =>
        pieceAll.foldl
          (fun st p =>
            (squaresOf board c p).foldl (fun st sq => st.add m c p sq) st)
          st)
      m.new_state⟩

/-- The `updates` list built at the top of `Position::play_unchecked`:
the mover's (color, piece), the captured piece's if the destination is
occupied, the promotion piece's, and the en-passant victim's. -/
def updatesOf (b : BoardM) (mv : MoveT) : List (ColorT × PieceT) :=
  match b.placement mv.fromSq with
  | none => []
  | some (mc, moved) =>
    [(mc, moved)]
      ++ (match b.placement mv.toSq with
          | some cp2 => [cp2]
          | none => [])
      ++ (match mv.promotion with
          | some p => [(mc, p)]
          | none => [])
      ++ (if moved = .pawn ∧ epSquareOf b = some mv.toSq then
            [(b.sideToMove.opp, .pawn)]
          else [])

/-- `Position::play_unchecked`: play the move on the board, then for every
updated (color, piece) pair subtract the features of squares in
`old & !new` and add the features of squares in `new & !old`. -/
def PositionM.play_unchecked (pos : PositionM) (m : NnueM) (mv : MoveT) :
    PositionM :=
  let updates := updatesOf pos.board mv
  let newBoard := pos.board.playUnchecked mv
  ⟨newBoard,
    updates.foldl
      (fun st cp =>
        let old_pieces := squaresOf pos.board cp.1 cp.2
        let new_pieces := squaresOf newBoard cp.1 cp.2
        let st := (old_pieces.filter fun sq => decide (sq ∉ new_pieces)).foldl
          (fun st sq => st.sub m cp.1 cp.2 sq) st
        (new_pieces.filter fun sq => decide (sq ∉ old_pieces)).foldl
          (fun st sq => st.add m cp.1 cp.2 sq) st)
      pos.nnue_state⟩

/-- Playing a whole sequence of moves incrementally. -/
def PositionM.playAll (pos : PositionM) (m : NnueM) : List MoveT → PositionM
  | [] => pos
  | mv :: rest => (pos.play_unchecked m mv).playAll m rest

/-- Playing a whole sequence of moves on the bare board. -/
def BoardM.playAll (b : BoardM) : List MoveT → BoardM
  | [] => b
  | mv :: rest => (b.playUnchecked mv).playAll rest

/- ### `HistoryTable` (src/engine/src/search/history.rs)

Scores are `i32`; they are embedded as `Int` (all reachable values stay
within `[-2048, 2048]` by the clamp, so the `i32` arithmetic never wraps).
Rust's `/` on signed integers truncates toward zero: `Int.tdiv`. -/

/-- `MAX_HISTORY`. -/
def MAX_HISTORY : Int := 2048

/-- `HistoryTable`: `[[[i32; Square::NUM]; Piece::NUM]; Color::NUM]`. -/
structure HistoryTable where
  scores : ColorT → PieceT → SquareT → Int

/-- `HistoryTable::new`. -/
def HistoryTable.new : HistoryTable := ⟨fun _ _ _ => 0⟩

/-- `HistoryTable::get`. -/
def HistoryTable.get (t : HistoryTable) (b : BoardM) (mv : MoveT) : Int :=
  match b.placement mv.fromSq with
  | some (_, piece) => t.scores b.sideToMove piece mv.toSq
  | none => 0

/-- `HistoryTable::update`.  The source unwraps `board.piece_on(mv.from)`;
a move with an empty source square leaves the table unchanged (the engine
never passes one). -/
def HistoryTable.update (t : HistoryTable) (b : BoardM) (mv : MoveT)
    (depth : Nat) (cutoff : Bool) : HistoryTable :=
  match b.placement mv.fromSq with
  | none => t
  | some (_, piece) =>
    let c := b.sideToMove
    let history := t.scores c piece mv.toSq
    let change : Int := (depth : Int) * (depth : Int)
    let decay := (change * history).tdiv MAX_HISTORY
    let history := if cutoff then history + change else history - change
    let history := history - decay
    let history := min (max history (-MAX_HISTORY)) MAX_HISTORY
    ⟨fun c2 p2 sq2 =>
      if c2 = c ∧ p2 = piece ∧ sq2 = mv.toSq then history
      else t.scores c2 p2 sq2⟩

/- ### Transposition cache (src/engine/src/search/cache.rs)

The two 64-bit atomic words of a slot are embedded as natural numbers
`< 2^64`; the `bytemuck` casts between `EncodedCacheData` and `u64` become
explicit little-endian byte packing (the `#[repr(C)]` struct of eight `u8`
fields on the little-endian targets the engine runs on). -/

/-- Byte `i` of a little-endian packed word. -/
def byteOf (n i : Nat) : Nat := n / 2 ^ (8 * i) % 256

/-- Modelled from the spec: `Eval::to_bytes` is declared in an eval source
file absent from the tree; the spec fixes it as the 2-byte little-endian
raw `i16`. -/
def EvalV.to_bytes (v : Int) : Nat × Nat :=
  let u := (v % 65536).toNat
  (u % 256, u / 256 % 256)

/-- Modelled from the spec: `Eval::from_bytes`, the inverse little-endian
2-byte read. -/
def EvalV.from_bytes (b0 b1 : Nat) : Int :=
  let u := b0 % 256 + b1 % 256 * 256
  if u < 32768 then (u : Int) else (u : Int) - 65536

/-- `CacheDataKind`. -/
inductive CacheDataKind where
  | Exact
  | LowerBound
  | UpperBound
deriving DecidableEq, Repr

/-- `kind as u8`. -/
def CacheDataKind.toByte : CacheDataKind → Nat
  | .Exact => 0
  | .LowerBound => 1
  | .UpperBound => 2

/-- The `match` in `EncodedCacheData::unmarshall`; the `_` arm is
`unreachable!()` in the source and is never produced by `marshall`. -/
def kindOfByte : Nat → CacheDataKind
  | 0 => .Exact
  | 1 => .LowerBound
  | 2 => .UpperBound
  | _ => .Exact

/-- `CacheData`.  Move squares are kept as their `u8` square indices
(`Square::index` is the identity on indices `< 64`, which marshalled data
always satisfies). -/
structure CacheData where
  kind : CacheDataKind
  eval : Int
  depth : Nat
  bmFrom : Nat
  bmTo : Nat
  promotion : Option PieceT
  age : Nat
deriving DecidableEq, Repr

/-- `EncodedCacheData` (eight `u8` fields, `#[repr(C)]`). -/
structure EncodedCacheData where
  kind : Nat
  eval0 : Nat
  eval1 : Nat
  depth : Nat
  bmFrom : Nat
  bmTo : Nat
  bmPromo : Nat
  age : Nat
deriving DecidableEq, Repr

/-- `CacheData::marshall`: note the hard-coded `age: 0`. -/
def CacheData.marshall (d : CacheData) : EncodedCacheData :=
  { kind := d.kind.toByte
    eval0 := (EvalV.to_bytes d.eval).1
    eval1 := (EvalV.to_bytes d.eval).2
    depth := d.depth
    bmFrom := d.bmFrom
    bmTo := d.bmTo
    bmPromo := match d.promotion with
      | some p => p.idx
      | none => 255
    age := 0 }

/-- `EncodedCacheData::unmarshall`. -/
def EncodedCacheData.unmarshall (e : EncodedCacheData) : CacheData :=
  { kind := kindOfByte e.kind
    eval := EvalV.from_bytes e.eval0 e.eval1
    depth := e.depth
    bmFrom := e.bmFrom
    bmTo := e.bmTo
    promotion := if e.bmPromo < 6 then some (pieceOfIdx e.bmPromo) else none
    age := e.age }

/-- The `bytemuck::cast` of `EncodedCacheData` to `u64` (little-endian). -/
def EncodedCacheData.encode (e : EncodedCacheData) : Nat :=
  e.kind % 256 + e.eval0 % 256 * 2 ^ 8 + e.eval1 % 256 * 2 ^ 16 +
    e.depth % 256 * 2 ^ 24 + e.bmFrom % 256 * 2 ^ 32 + e.bmTo % 256 * 2 ^ 40 +
    e.bmPromo % 256 * 2 ^ 48 + e.age % 256 * 2 ^ 56

/-- The `bytemuck::cast` of a `u64` back to `EncodedCacheData`. -/
def decodeECD (n : Nat) : EncodedCacheData :=
  ⟨byteOf n 0, byteOf n 1, byteOf n 2, byteOf n 3, byteOf n 4, byteOf n 5,
    byteOf n 6, byteOf n 7⟩

/-- One `CacheEntry`: the two atomic words. -/
structure CacheSlot where
  hashXorData : Nat
  data : Nat
deriving DecidableEq, Repr

/-- `CacheEntry::empty`. -/
def CacheSlot.empty : CacheSlot := ⟨0, 0⟩

/-- `CacheEntry::is_empty`. -/
def CacheSlot.is_empty (s : CacheSlot) : Bool := s.data = 0

/-- `CacheTable`: the slot array plus the age counter (a `u8`). -/
structure CacheTableM where
  table : List CacheSlot
  age : Nat
deriving DecidableEq, Repr

/-- `CacheTableError`. -/
inductive CacheTableError where
  | NotEnoughMemory
  | TooManyEntries
deriving DecidableEq, Repr

instance {ε α : Type} [DecidableEq ε] [DecidableEq α] :
    DecidableEq (Except ε α) := fun x y =>
  match x, y with
  | .ok a, .ok b =>
    if h : a = b then isTrue (by rw [h])
    else isFalse (by intro he; cases he; exact h rfl)
  | .error a, .error b =>
    if h : a = b then isTrue (by rw [h])
    else isFalse (by intro he; cases he; exact h rfl)
  | .ok _, .error _ => isFalse (by intro he; cases he)
  | .error _, .ok _ => isFalse (by intro he; cases he)

/-- `CacheTable::new_with_entries` (the argument is a `NonZeroU32`). -/
def CacheTableM.new_with_entries (entries : Nat) : CacheTableM :=
  ⟨List.replicate entries CacheSlot.empty, 0⟩

/-- `CacheTable::new_with_size`.  `size_of::<CacheEntry>()` is 16 (two
`u64` words); the `u32` conversion fails iff the count exceeds
`u32::MAX = 2^32 - 1`, the `NonZeroU32` conversion fails iff it is zero. -/
def CacheTableM.new_with_size (size : Nat) :
    Except CacheTableError CacheTableM :=
  let entries := size / 16
  if 2 ^ 32 - 1 < entries then .error .TooManyEntries
  else if entries = 0 then .error .NotEnoughMemory
  else .ok (CacheTableM.new_with_entries entries)

/-- `CacheTable::capacity`. -/
def CacheTableM.capacity (t : CacheTableM) : Nat := t.table.length

/-- The slot index for a hash: `(hash_low32 * capacity) >> 32`
(`CacheTable::entry`). -/
def CacheTableM.entryIndex (t : CacheTableM) (boardHash : Nat) : Nat :=
  boardHash % 2 ^ 32 * t.capacity / 2 ^ 32

/-- The slot selected for a board hash. -/
def CacheTableM.slotAt (t : CacheTableM) (boardHash : Nat) : CacheSlot :=
  t.table.getD (t.entryIndex boardHash) CacheSlot.empty

/-- `u8::wrapping_sub`. -/
def wrapSub8 (a b : Nat) : Nat := (a % 256 + 256 - b % 256) % 256

/-- `u8::wrapping_add`. -/
def wrapAdd8 (a b : Nat) : Nat := (a + b) % 256

/-- `CacheTable::get`.  The mate-distance remap mirrors the source exactly:
the `u32` arithmetic `20000 - p - u8::MAX as u32` never wraps because the
stored distance is at most 255 and `ply_index` at most 255. -/
def CacheTableM.get (t : CacheTableM) (boardHash ply : Nat) :
    Option CacheData :=
  let entry := t.slotAt boardHash
  let data := entry.data
  let hash := entry.hashXorData ^^^ data
  if data = 0 ∨ hash ≠ boardHash then none
  else
    let d := (decodeECD data).unmarshall
    some { d with
      eval :=
        match EvalV.kind d.eval with
        | .Centipawn _ => d.eval
        | .MateIn p =>
          let p := p + ply
          if p ≤ 255 then EvalV.mate_in p
          else EvalV.cp ((20000 : Int) - p - 255)
        | .MatedIn p =>
          let p := p + ply
          if p ≤ 255 then EvalV.mated_in p
          else EvalV.cp (-((20000 : Int) - p - 255)) }

/-- `CacheTable::set`.  The stored mate distance `p - ply_index` is `u8`
arithmetic (wrapping in release builds). -/
def CacheTableM.set (t : CacheTableM) (boardHash ply : Nat) (d : CacheData) :
    CacheTableM :=
  let d := { d with
    eval :=
      match EvalV.kind d.eval with
      | .Centipawn _ => d.eval
      | .MateIn p => EvalV.mate_in (wrapSub8 p ply)
      | .MatedIn p => EvalV.mated_in (wrapSub8 p ply) }
  let entry := t.slotAt boardHash
  let prev_data := entry.data
  let prev_hash := entry.hashXorData ^^^ prev_data
  let prev := decodeECD prev_data
  let same_position := boardHash = prev_hash
  let at_least_as_deep := prev.depth ≤ d.depth % 256
  let replaces_stale := 2 ≤ wrapSub8 t.age prev.age
  if same_position ∨ at_least_as_deep ∨ replaces_stale then
    let data := d.marshall.encode
    { t with
      table := t.table.set (t.entryIndex boardHash) ⟨boardHash ^^^ data, data⟩ }
  else t

/-- `CacheTable::clear`. -/
def CacheTableM.clear (t : CacheTableM) : CacheTableM :=
  { t with table := t.table.map fun _ => CacheSlot.empty }

/-- `CacheTable::age_by`. -/
def CacheTableM.age_by (t : CacheTableM) (plies : Nat) : CacheTableM :=
  { t with age := wrapAdd8 t.age plies }

/-- The cache states reachable through the public constructors and
mutators (`new_with_entries`, `set`, `clear`, `age_by`).  `new_with_entries`
takes a `NonZeroU32`; `ply` and `plies` are `u8`s and `depth` a `u8`. -/
inductive CacheReachable : CacheTableM → Prop
  | new (entries : Nat) (h1 : 1 ≤ entries) (h2 : entries ≤ 2 ^ 32 - 1) :
      CacheReachable (CacheTableM.new_with_entries entries)
  | set (t : CacheTableM) (boardHash ply : Nat) (d : CacheData)
      (hply : ply ≤ 255) (ht : CacheReachable t) :
      CacheReachable (t.set boardHash ply d)
  | clear (t : CacheTableM) (ht : CacheReachable t) :
      CacheReachable t.clear
  | age_by (t : CacheTableM) (plies : Nat) (hp : plies ≤ 255)
      (ht : CacheReachable t) :
      CacheReachable (t.age_by plies)

/- ### The entry of `Searcher::search_node` (src/engine/src/search/search.rs)

The driver's recursion is abstracted to its decision prefix: the part of
`search_node` from the `game_history.push` through the repetition checks.
Everything after those checks (status, oracle, TT probe, move loop) is
summarised by the `continueSearch` outcome, and the `depth == 0` branch by
`toQuiescence` (the value of `self.quiescence(...)`). -/

/-- `Iterator::step_by(2)`: keep every second element. -/
def stepBy2 {α : Type} : List α → List α
  | [] => []
  | [x] => [x]
  | x :: _ :: rest => x :: stepBy2 rest

/-- `Searcher::repetitions(board)`: walk the game history backwards, keep
the last `halfmove_clock + 1` entries, every second one, skip the current
board, and count hash matches. -/
def repetitionsM (gameHistory : List Nat) (boardHash halfmoveClock : Nat) :
    Nat :=
  (((stepBy2 (gameHistory.reverse.take (halfmoveClock + 1))).drop 1).filter
    fun h => decide (h = boardHash)).length

/-- `Node`. -/
inductive NodeT where
  | Root
  | Pv
  | Normal
deriving DecidableEq, Repr

/-- How the modelled prefix of `search_node` exits. -/
inductive NodeOutcome where
  | ret (e : Int)
  | aborted
  | toQuiescence
  | continueSearch
deriving DecidableEq, Repr

/-- The decision prefix of `Searcher::search_node`: push the current hash,
extend the depth when in check (`u8` arithmetic), and run the repetition /
stop checks in source order.  `gameHistory` is the history stack before the
push, `stop` is `self.handler.stop_search()`. -/
def searchNodeEarly (node : NodeT) (depth : Nat) (inCheck stop : Bool)
    (gameHistory : List Nat) (boardHash halfmoveClock : Nat) : NodeOutcome :=
  let hist := gameHistory ++ [boardHash]
  let depth := if inCheck then (depth + 1) % 256 else depth
  if depth = 0 then
    if node ≠ .Root ∧ 1 < repetitionsM hist boardHash halfmoveClock then
      .ret EvalV.DRAW
    else .toQuiescence
  else if stop then .aborted
  else if node ≠ .Root ∧ 0 < repetitionsM hist boardHash halfmoveClock then
    .ret EvalV.DRAW
  else .continueSearch

/- ### Spec-side definitions (for refinement statements) -/

/-- The eval remap `CacheTable::get` is specified to perform, written from
the (amended) spec's words: classify the stored raw value with `Eval::kind`
(whose distance casts wrap `as u8`); centipawns unchanged; add `ply` to a
mate distance; if the result no longer fits in 8 bits, downgrade to the
centipawn value `20000 - 255 - p`, sign-preserving. -/
def specGetRemap (e : Int) (ply : Nat) : Int :=
  match EvalV.kind e with
  | .Centipawn _ => e
  | .MateIn p =>
    if p + ply ≤ 255 then EvalV.mate_in (p + ply)
    else EvalV.cp (20000 - 255 - (p + ply : Int))
  | .MatedIn p =>
    if p + ply ≤ 255 then EvalV.mated_in (p + ply)
    else EvalV.cp (-(20000 - 255 - (p + ply : Int)))

/-- The invariant carried by every reachable cache state: the age counter
is a `u8` and every slot word fits in 56 bits — equivalently, its age byte
(the top byte) is zero. -/
def CacheAgeInv (t : CacheTableM) : Prop :=
  t.age < 256 ∧ ∀ s ∈ t.table, s.data < 2 ^ 56

/-- The accumulator `Position::new` rebuilds from scratch, written as the
biases plus the summed weight rows of every piece on the board (the loop
order of `Position::new`, flattened to list sums). -/
def accScratch (m : NnueM) (b : BoardM) : ColorT → Fin 256 → AccEntry :=
  fun persp i =>
    m.ft.biases i +
      (colorAll.map fun c =>
        (pieceAll.map fun p =>
          ((squaresOf b c p).map fun sq =>
            m.ft.weights (feature persp c p sq) i).sum).sum).sum

/- ## Theorems -/

/- ### C6: Eval ordering -/

/-- C6: under `Eval`'s derived integer ordering, `mate_in` is strictly
antitone and `mated_in` strictly monotone in the ply count, and every mate
value compares beyond every centipawn value of magnitude up to 20000. -/
theorem c6_eval_ordering (p q : Nat) (hpq : p < q) (hq : q ≤ 255) :
    EvalV.mate_in q < EvalV.mate_in p ∧
    EvalV.mated_in p < EvalV.mated_in q ∧
    EvalV.cp 20000 < EvalV.mate_in 255 ∧
    EvalV.mated_in 255 < EvalV.cp (-20000) := by
  simp only [EvalV.mate_in, EvalV.mated_in, EvalV.cp, EvalV.MATE_IN_ZERO,
    i16Max]
  refine ⟨?_, ?_, ?_, ?_⟩ <;> omega

/-- C6 witness: the ordering facts at `p = 1`, `q = 2`. -/
theorem c6_eval_ordering_witness :
    1 < 2 ∧ 2 ≤ 255 ∧
    (EvalV.mate_in 2 < EvalV.mate_in 1 ∧
     EvalV.mated_in 1 < EvalV.mated_in 2 ∧
     EvalV.cp 20000 < EvalV.mate_in 255 ∧
     EvalV.mated_in 255 < EvalV.cp (-20000)) :=
  ⟨by decide, by decide, c6_eval_ordering 1 2 (by decide) (by decide)⟩

/- ### C5: saturating_sub -/

/-- C5 counterexample: when the raw saturating subtraction bottoms out at
`i16::MIN`, the result is `i16::MIN + 1`, which is `Eval::MIN` itself — not
`Eval::MIN + 1` as the claim's reading of `MIN` would have it. -/
theorem c5_saturating_sub_counterexample :
    max (min (EvalV.cp (-30000) - EvalV.cp 30000) i16Max) i16Min = i16Min ∧
    EvalV.saturating_sub (EvalV.cp (-30000)) (EvalV.cp 30000) = EvalV.MIN ∧
    EvalV.saturating_sub (EvalV.cp (-30000)) (EvalV.cp 30000) ≠
      EvalV.MIN + 1 := by
  decide

/-- C5 (amended): `saturating_sub` clamps the raw subtraction to
`[i16::MIN + 1, i16::MAX]`: it never returns `i16::MIN`, whenever the raw
saturating subtraction would yield `i16::MIN` it returns `i16::MIN + 1`
(which equals `Eval::MIN = -Eval::MAX`), and the result always negates
safely within the `i16` range. -/
theorem c5_saturating_sub_safe (a b : Int) :
    EvalV.saturating_sub a b = max (min (a - b) i16Max) (i16Min + 1) ∧
    EvalV.saturating_sub a b ≠ i16Min ∧
    (max (min (a - b) i16Max) i16Min = i16Min →
      EvalV.saturating_sub a b = EvalV.MIN) ∧
    i16Range (EvalV.saturating_sub a b) ∧
    i16Range (-(EvalV.saturating_sub a b)) := by
  simp only [EvalV.saturating_sub, EvalV.satI16, EvalV.MIN, EvalV.MAX,
    i16Range, i16Max, i16Min, max_def, min_def]
  refine ⟨?_, ?_, ?_, ?_, ?_⟩ <;> split_ifs <;>
    first
    | contradiction
    | exact id
    | omega

/- ### C7: SEE piece values -/

/-- C7 counterexample: the `piece_value` table driving the SEE swap loop in
`search/moves/see.rs` assigns the king 20000, not the claimed sentinel 0
(the value 0 appears only in `eval_consts::PIECE_VALUES`, used by the
legacy SEE in `search/moves.rs`). -/
theorem c7_piece_value_counterexample :
    piece_value .king = 20000 ∧ (20000 : Int) ≠ 0 ∧
    PIECE_VALUES.get .king = 0 := by
  decide

/-- C7 (amended): the SEE of `search/moves/see.rs` uses the fixed values
pawn 100, knight 320, bishop 330, rook 500, queen 900 and king 20000;
every value the swap loop pushes onto the gain stack is `piece_value` of
the victim piece of that iteration, and the first five values agree with
`eval_consts::PIECE_VALUES`. -/
theorem c7_see_piece_values :
    (piece_value .pawn = 100 ∧ piece_value .knight = 320 ∧
     piece_value .bishop = 330 ∧ piece_value .rook = 500 ∧
     piece_value .queen = 900 ∧ piece_value .king = 20000) ∧
    (∀ (T : Int) (ourTurn : Bool) (b : Int) (target : PieceT)
        (atks : List PieceT),
      seeGains T ourTurn b target atks =
        (seeVictims T ourTurn b target atks).map piece_value) ∧
    (PIECE_VALUES.get .pawn = piece_value .pawn ∧
     PIECE_VALUES.get .knight = piece_value .knight ∧
     PIECE_VALUES.get .bishop = piece_value .bishop ∧
     PIECE_VALUES.get .rook = piece_value .rook ∧
     PIECE_VALUES.get .queen = piece_value .queen) := by
  refine ⟨by decide, ?_, by decide⟩
  intro T ourTurn b target atks
  induction atks generalizing ourTurn b target with
  | nil => simp [seeGains, seeVictims]
  | cons a rest ih =>
    simp only [seeGains, seeVictims]
    split_ifs <;> simp [ih]

/- ### C9: cache construction -/

/-- C9 counterexample: at `size = 2^36` the slot count is exactly `2^32`,
which does not exceed `2^32`, yet construction fails with
`TooManyEntries` (the `u32` conversion already fails at `2^32`). -/
theorem c9_new_with_size_counterexample :
    CacheTableM.new_with_size (2 ^ 36) = .error .TooManyEntries ∧
    2 ^ 36 / 16 = 2 ^ 32 ∧ ¬(2 ^ 32 < 2 ^ 36 / 16) ∧ 2 ^ 36 / 16 ≠ 0 := by
  decide

/-- C9 (amended): `new_with_size(size)` yields a table of exactly
`⌊size / 16⌋` slots; it errors `TooManyEntries` exactly when that count
exceeds `u32::MAX = 2^32 - 1`, errors `NotEnoughMemory` exactly when the
count is zero, and succeeds otherwise. -/
theorem c9_new_with_size (size : Nat) :
    (CacheTableM.new_with_size size = .error .NotEnoughMemory ↔
      size / 16 = 0) ∧
    (CacheTableM.new_with_size size = .error .TooManyEntries ↔
      2 ^ 32 - 1 < size / 16) ∧
    (size / 16 ≠ 0 → size / 16 ≤ 2 ^ 32 - 1 →
      CacheTableM.new_with_size size =
        .ok (CacheTableM.new_with_entries (size / 16))) ∧
    (CacheTableM.new_with_entries (size / 16)).capacity = size / 16 := by
  simp only [CacheTableM.new_with_size, CacheTableM.capacity,
    CacheTableM.new_with_entries]
  refine ⟨?_, ?_, ?_, by simp⟩ <;> split_ifs with h1 h2 <;>
    simp_all <;> omega

/-- C9 witness: a 32-byte request builds a 2-slot table. -/
theorem c9_new_with_size_witness :
    32 / 16 ≠ 0 ∧ 32 / 16 ≤ 2 ^ 32 - 1 ∧
    CacheTableM.new_with_size 32 =
      .ok (CacheTableM.new_with_entries (32 / 16)) :=
  ⟨by decide, by decide,
    (c9_new_with_size 32).2.2.1 (by decide) (by decide)⟩

/- ### C8: history gravity -/

/-- C8 counterexample: with a stored score of `-2048` and a depth-2
cutoff, the code yields `-2040` (the signed gravity term `change·h/2048`
pulls toward zero), while the claim's formula `h + change − change·|h|/2048`
(clamped) yields `-2048`. -/
theorem c8_history_update_counterexample :
    (HistoryTable.update ⟨fun _ _ _ => -2048⟩
        ⟨fun sq => if sq = ⟨0, 0⟩ then some (.white, .knight) else none,
          .white, none⟩
        ⟨⟨0, 0⟩, ⟨1, 2⟩, none⟩ 2 true).scores .white .knight ⟨1, 2⟩ =
      -2040 ∧
    min (max ((-2048 : Int) + 4 - (4 * |(-2048 : Int)|).tdiv 2048)
        (-2048)) 2048 = -2048 ∧
    (-2040 : Int) ≠ -2048 := by
  refine ⟨?_, by decide, by decide⟩
  decide

/-- C8 (amended): on an update for a move whose source square holds
`piece`, the stored score `h` at `[side-to-move][piece][mv.to]` becomes
`h + change − (change·h)/2048` on a cutoff and
`h − change − (change·h)/2048` otherwise, with `change = depth²`, the
division truncating toward zero and the result clamped to
`[-2048, 2048]`; all other entries are unchanged, and the new entry lies
in `[-2048, 2048]`. -/
theorem c8_history_update (t : HistoryTable) (b : BoardM) (mv : MoveT)
    (depth : Nat) (cutoff : Bool) (c : ColorT) (piece : PieceT)
    (hp : b.placement mv.fromSq = some (c, piece)) :
    (let h := t.scores b.sideToMove piece mv.toSq
     let change : Int := (depth : Int) * (depth : Int)
     let next := min (max ((if cutoff then h + change else h - change) -
         (change * h).tdiv MAX_HISTORY) (-MAX_HISTORY)) MAX_HISTORY
     (t.update b mv depth cutoff).scores b.sideToMove piece mv.toSq = next ∧
     -MAX_HISTORY ≤ next ∧ next ≤ MAX_HISTORY) ∧
    ∀ c2 p2 sq2, ¬(c2 = b.sideToMove ∧ p2 = piece ∧ sq2 = mv.toSq) →
      (t.update b mv depth cutoff).scores c2 p2 sq2 = t.scores c2 p2 sq2 := by
  unfold HistoryTable.update
  rw [hp]
  dsimp only
  refine ⟨⟨by simp, ?_, ?_⟩, ?_⟩
  · unfold MAX_HISTORY; omega
  · unfold MAX_HISTORY; omega
  · intro c2 p2 sq2 h2
    simp only [if_neg h2]

/-- C8 witness: the update formula evaluated for a depth-3 non-cutoff on a
zeroed table (the indexed entry becomes `-9`, a different entry stays 0). -/
theorem c8_history_update_witness :
    (⟨fun sq => if sq = ⟨0, 0⟩ then some (.white, .rook) else none,
        .white, none⟩ : BoardM).placement ⟨0, 0⟩ = some (.white, .rook) ∧
    ((let h := (0 : Int)
      let change : Int := (3 : Int) * (3 : Int)
      let next := min (max ((if false then h + change else h - change) -
          (change * h).tdiv MAX_HISTORY) (-MAX_HISTORY)) MAX_HISTORY
      (HistoryTable.new.update
          ⟨fun sq => if sq = ⟨0, 0⟩ then some (.white, .rook) else none,
            .white, none⟩
          ⟨⟨0, 0⟩, ⟨3, 3⟩, none⟩ 3 false).scores .white .rook ⟨3, 3⟩ = next ∧
      -MAX_HISTORY ≤ next ∧ next ≤ MAX_HISTORY) ∧
     ∀ c2 p2 sq2, ¬(c2 = ColorT.white ∧ p2 = PieceT.rook ∧
         sq2 = (⟨⟨0, 0⟩, ⟨3, 3⟩, none⟩ : MoveT).toSq) →
       (HistoryTable.new.update
           ⟨fun sq => if sq = ⟨0, 0⟩ then some (.white, .rook) else none,
             .white, none⟩
           ⟨⟨0, 0⟩, ⟨3, 3⟩, none⟩ 3 false).scores c2 p2 sq2 =
         HistoryTable.new.scores c2 p2 sq2) :=
  ⟨by decide,
    c8_history_update HistoryTable.new
      ⟨fun sq => if sq = ⟨0, 0⟩ then some (.white, .rook) else none,
        .white, none⟩
      ⟨⟨0, 0⟩, ⟨3, 3⟩, none⟩ 3 false .white .rook (by decide)⟩

/- ### C4: repetition draws -/

/-- C4 counterexample: a non-root node entered with the stop signal unset
whose position already occurred once in the halfmove window (so it appears
twice counting itself), but whose post-extension depth is 0: `search_node`
does not return `DRAW`; it falls through to quiescence (the depth-0 branch
demands more than one prior occurrence). -/
theorem c4_repetition_counterexample :
    repetitionsM ([5, 9] ++ [5]) 5 10 = 1 ∧
    searchNodeEarly .Pv 0 false false [5, 9] 5 10 = .toQuiescence ∧
    NodeOutcome.toQuiescence ≠ .ret EvalV.DRAW := by
  decide

/-- C4 (amended): at every non-root node entered with the stop signal
unset, `search_node` returns `DRAW` as soon as the position's hash occurs
at least once more (stride 2, skipping self, within `halfmove_clock + 1`
plies) — provided the check-extended depth is nonzero; at depth-0 nodes
the draw is returned only when it occurs at least twice more, the node
otherwise falling through to quiescence. -/
theorem c4_repetition_draw (node : NodeT) (depth : Nat) (inCheck : Bool)
    (hist : List Nat) (boardHash halfmoveClock : Nat)
    (hnode : node ≠ .Root) :
    (((if inCheck then (depth + 1) % 256 else depth) ≠ 0) →
      0 < repetitionsM (hist ++ [boardHash]) boardHash halfmoveClock →
      searchNodeEarly node depth inCheck false hist boardHash halfmoveClock =
        .ret EvalV.DRAW) ∧
    (((if inCheck then (depth + 1) % 256 else depth) = 0) →
      1 < repetitionsM (hist ++ [boardHash]) boardHash halfmoveClock →
      searchNodeEarly node depth inCheck false hist boardHash halfmoveClock =
        .ret EvalV.DRAW) ∧
    (((if inCheck then (depth + 1) % 256 else depth) = 0) →
      repetitionsM (hist ++ [boardHash]) boardHash halfmoveClock ≤ 1 →
      searchNodeEarly node depth inCheck false hist boardHash halfmoveClock =
        .toQuiescence) := by
  unfold searchNodeEarly
  refine ⟨?_, ?_, ?_⟩ <;> intro hd hrep <;>
    simp only [hd, if_pos, if_neg] <;> split_ifs <;> simp_all <;> omega

/- ### SEE helper lemmas (for C3) -/

theorem piece_value_nonneg (p : PieceT) : 0 ≤ piece_value p := by
  cases p <;> decide

/-- Under nonnegative gains the forced deepest capture is also the optimal
one, so `declineFold` satisfies the uniform "capture or decline"
recursion. -/
theorem declineFold_cons (g : Int) (rest : List Int)
    (hpos : ∀ x ∈ g :: rest, 0 ≤ x) :
    declineFold (g :: rest) = max (g - declineFold rest) 0 := by
  cases rest with
  | nil =>
    have hg : 0 ≤ g := hpos g (List.mem_cons_self g _)
    simp only [declineFold]
    omega
  | cons b l => rfl

/-- `T ≤`-comparisons of the resolved gain stack reduce to the alternating
AND/OR chain over the running balances: for a nonnegative suffix `L`,
`declineFold L ≤ b - T` iff the their-move chain holds, and
`T - b ≤ declineFold L` iff the our-move chain holds. -/
theorem seeChain_iff (L : List Int) : ∀ b T : Int, (∀ x ∈ L, 0 ≤ x) →
    ((declineFold L ≤ b - T ↔ seeChain T false b L = true) ∧
     (T - b ≤ declineFold L ↔ seeChain T true b L = true)) := by
  induction L with
  | nil =>
    intro b T _
    simp only [declineFold, seeChain, decide_eq_true_eq]
    exact ⟨by omega, by omega⟩
  | cons g rest ih =>
    intro b T hpos
    have hrest : ∀ x ∈ rest, 0 ≤ x :=
      fun x hx => hpos x (List.mem_cons_of_mem _ hx)
    have hfold := declineFold_cons g rest hpos
    have ih1 := (ih (b - g) T hrest).2
    have ih2 := (ih (b + g) T hrest).1
    constructor
    · rw [hfold]
      simp only [seeChain, Bool.and_eq_true, decide_eq_true_eq]
      constructor
      · intro h
        exact ⟨by omega, ih1.mp (by omega)⟩
      · rintro ⟨hTb, hc⟩
        have := ih1.mpr hc
        omega
    · rw [hfold]
      simp only [seeChain, Bool.or_eq_true, decide_eq_true_eq]
      constructor
      · intro h
        by_cases hTb : T ≤ b
        · exact Or.inl hTb
        · exact Or.inr (ih2.mp (by omega))
      · rintro (hTb | hc)
        · omega
        · have := ih2.mpr hc
          omega

/-- `T ≤ resolveGains` is decided by the chain over the suffix. -/
theorem resolveGains_le_iff (g0 : Int) (L : List Int) (T : Int)
    (hpos : ∀ x ∈ L, 0 ≤ x) :
    (T ≤ resolveGains (g0 :: L)) ↔ seeChain T false g0 L = true := by
  have h := (seeChain_iff L g0 T hpos).1
  simp only [resolveGains]
  constructor
  · intro hT
    exact h.mp (by omega)
  · intro hc
    have := h.mpr hc
    omega

/-- Every value the exchange loop pushes is a piece value, hence
nonnegative. -/
theorem seeGains_nonneg (atks : List PieceT) :
    ∀ (T : Int) (ourTurn : Bool) (b : Int) (target : PieceT),
      ∀ x ∈ seeGains T ourTurn b target atks, 0 ≤ x := by
  induction atks with
  | nil =>
    intro T ourTurn b target x hx
    simp [seeGains] at hx
  | cons a rest ih =>
    intro T ourTurn b target x hx
    simp only [seeGains] at hx
    split_ifs at hx <;>
      first
        | exact absurd hx (List.not_mem_nil x)
        | (rw [List.mem_singleton] at hx
           subst hx
           exact piece_value_nonneg _)
        | (rcases List.mem_cons.mp hx with rfl | hx
           · exact piece_value_nonneg _
           · exact ih _ _ _ _ x hx)

/-- The crux of the threshold equivalence: the chain value of the gains
list is unchanged by the early cutoff, because the cutoff fires exactly
when the current chain literal decides the whole chain (`T ≤ b` true at an
OR, false at an AND). -/
theorem seeChain_gains_cutoff (atks : List PieceT) :
    ∀ (T : Int) (ourTurn : Bool) (b : Int) (target : PieceT),
      T ≠ NO_THRESHOLD →
      seeChain T ourTurn b (seeGains T ourTurn b target atks) =
        seeChain T ourTurn b (seeGains NO_THRESHOLD ourTurn b target atks) := by
  induction atks with
  | nil =>
    intro T ourTurn b target hT
    simp [seeGains]
  | cons a rest ih =>
    intro T ourTurn b target hT
    simp only [seeGains]
    have hno : ¬(NO_THRESHOLD ≠ NO_THRESHOLD ∧
        (if ourTurn then NO_THRESHOLD ≤ b else b < NO_THRESHOLD)) :=
      fun h => h.1 rfl
    rw [if_neg hno]
    by_cases hcut : T ≠ NO_THRESHOLD ∧ (if ourTurn then T ≤ b else b < T)
    · rw [if_pos hcut]
      obtain ⟨-, hc⟩ := hcut
      cases ourTurn with
      | false =>
        simp only [Bool.false_eq_true, if_false] at hc
        have hnb : ¬(T ≤ b) := by omega
        split_ifs <;> simp [seeChain, hnb]
      | true =>
        simp only [if_true] at hc
        split_ifs <;> simp [seeChain, hc]
    · rw [if_neg hcut]
      by_cases hk : target = .king
      · rw [if_pos hk, if_pos hk]
      · rw [if_neg hk, if_neg hk]
        cases ourTurn with
        | false =>
          show (decide (T ≤ b) &&
              seeChain T true (b - piece_value target)
                (seeGains T true (b - piece_value target) a rest)) =
            (decide (T ≤ b) &&
              seeChain T true (b - piece_value target)
                (seeGains NO_THRESHOLD true (b - piece_value target) a rest))
          rw [ih T true (b - piece_value target) a hT]
        | true =>
          show (decide (T ≤ b) ||
              seeChain T false (b + piece_value target)
                (seeGains T false (b + piece_value target) a rest)) =
            (decide (T ≤ b) ||
              seeChain T false (b + piece_value target)
                (seeGains NO_THRESHOLD false (b + piece_value target) a rest))
          rw [ih T false (b + piece_value target) a hT]

/- ### C3: threshold SEE agrees with full SEE -/

/-- C3: for every abstract exchange (initial victim, mover, and attacker
sequence — subsuming every board and capture move) and every threshold `T`,
`static_exchange_evaluation_above::<T>` returns `true` exactly when the
full static exchange evaluation is at least `cp T`. -/
theorem c3_see_threshold_equiv (T : Int) (initialCapture mover : PieceT)
    (atks : List PieceT) :
    static_exchange_evaluation_above T initialCapture mover atks = true ↔
    EvalV.cp T ≤ static_exchange_evaluation initialCapture mover atks := by
  unfold static_exchange_evaluation_above static_exchange_evaluation
  simp only [decide_eq_true_eq]
  by_cases hT : T = NO_THRESHOLD
  · subst hT
    exact Iff.rfl
  · unfold inner_see EvalV.cp
    rw [resolveGains_le_iff _ _ _ (seeGains_nonneg atks T false _ mover),
      resolveGains_le_iff _ _ _ (seeGains_nonneg atks NO_THRESHOLD false _ mover),
      seeChain_gains_cutoff atks T false _ mover hT]

/- ### NNUE helper lemmas (for C2) -/

theorem foldl_add_accumulator (m : NnueM) (c : ColorT) (p : PieceT)
    (l : List SquareT) (st : NnueStateM) (persp : ColorT) (i : Fin 256) :
    (l.foldl (fun st sq => st.add m c p sq) st).accumulator persp i =
      st.accumulator persp i +
        (l.map fun sq => m.ft.weights (feature persp c p sq) i).sum := by
  induction l generalizing st with
  | nil => simp
  | cons sq rest ih =>
    simp only [List.foldl_cons, List.map_cons, List.sum_cons]
    rw [ih]
    show (st.add m c p sq).accumulator persp i + _ = _
    simp only [NnueStateM.add]
    ring

theorem foldl_sub_accumulator (m : NnueM) (c : ColorT) (p : PieceT)
    (l : List SquareT) (st : NnueStateM) (persp : ColorT) (i : Fin 256) :
    (l.foldl (fun st sq => st.sub m c p sq) st).accumulator persp i =
      st.accumulator persp i -
        (l.map fun sq => m.ft.weights (feature persp c p sq) i).sum := by
  induction l generalizing st with
  | nil => simp
  | cons sq rest ih =>
    simp only [List.foldl_cons, List.map_cons, List.sum_cons]
    rw [ih]
    show (st.sub m c p sq).accumulator persp i - _ = _
    simp only [NnueStateM.sub]
    ring

theorem foldl_pieces_accumulator (m : NnueM) (b : BoardM) (c : ColorT)
    (ps : List PieceT) (st : NnueStateM) (persp : ColorT) (i : Fin 256) :
    ((ps.foldl (fun st p =>
        (squaresOf b c p).foldl (fun st sq => st.add m c p sq) st)
      st).accumulator persp i) =
      st.accumulator persp i +
        (ps.map fun p =>
          ((squaresOf b c p).map fun sq =>
            m.ft.weights (feature persp c p sq) i).sum).sum := by
  induction ps generalizing st with
  | nil => simp
  | cons p rest ih =>
    simp only [List.foldl_cons, List.map_cons, List.sum_cons]
    rw [ih, foldl_add_accumulator]
    ring

theorem foldl_colors_accumulator (m : NnueM) (b : BoardM) (cs : List ColorT)
    (st : NnueStateM) (persp : ColorT) (i : Fin 256) :
    ((cs.foldl (fun st c =>
        pieceAll.foldl (fun st p =>
          (squaresOf b c p).foldl (fun st sq => st.add m c p sq) st) st)
      st).accumulator persp i) =
      st.accumulator persp i +
        (cs.map fun c =>
          (pieceAll.map fun p =>
            ((squaresOf b c p).map fun sq =>
              m.ft.weights (feature persp c p sq) i).sum).sum).sum := by
  induction cs generalizing st with
  | nil => simp
  | cons c rest ih =>
    simp only [List.foldl_cons, List.map_cons, List.sum_cons]
    rw [ih, foldl_pieces_accumulator]
    ring

/-- `Position::new` builds exactly the scratch accumulator. -/
theorem positionNew_accumulator (m : NnueM) (b : BoardM) :
    (PositionM.new m b).nnue_state.accumulator = accScratch m b := by
  funext persp i
  show ((colorAll.foldl _ m.new_state).accumulator persp i) = _
  rw [foldl_colors_accumulator]
  rfl

theorem allSquares_complete (sq : SquareT) : sq ∈ allSquares := by
  revert sq
  decide

theorem allSquares_nodup : allSquares.Nodup := by decide

theorem mem_squaresOf {b : BoardM} {c : ColorT} {p : PieceT} {sq : SquareT} :
    sq ∈ squaresOf b c p ↔ b.placement sq = some (c, p) := by
  simp [squaresOf, List.mem_filter, allSquares_complete sq]

theorem squaresOf_nodup (b : BoardM) (c : ColorT) (p : PieceT) :
    (squaresOf b c p).Nodup :=
  allSquares_nodup.filter _

theorem squaresOf_toFinset (b : BoardM) (c : ColorT) (p : PieceT) :
    (squaresOf b c p).toFinset = colorsPieces b c p := by
  ext sq
  simp [mem_squaresOf, colorsPieces]

theorem squaresOf_sum (b : BoardM) (c : ColorT) (p : PieceT)
    (f : SquareT → AccEntry) :
    ((squaresOf b c p).map f).sum = ∑ sq ∈ colorsPieces b c p, f sq := by
  rw [← squaresOf_toFinset, List.sum_toFinset _ (squaresOf_nodup b c p)]

theorem filter_not_mem_toFinset (b b' : BoardM) (c : ColorT) (p : PieceT) :
    ((squaresOf b' c p).filter fun sq =>
      decide (sq ∉ squaresOf b c p)).toFinset =
      colorsPieces b' c p \ colorsPieces b c p := by
  ext sq
  simp [List.mem_filter, mem_squaresOf, colorsPieces, Finset.mem_sdiff]

theorem filter_not_mem_sum (b b' : BoardM) (c : ColorT) (p : PieceT)
    (f : SquareT → AccEntry) :
    ((((squaresOf b' c p).filter fun sq =>
        decide (sq ∉ squaresOf b c p))).map f).sum =
      ∑ sq ∈ colorsPieces b' c p \ colorsPieces b c p, f sq := by
  rw [← filter_not_mem_toFinset b b' c p,
    List.sum_toFinset _ ((squaresOf_nodup b' c p).filter _)]

theorem sum_sdiff_sub_sum_sdiff (A B : Finset SquareT)
    (f : SquareT → AccEntry) :
    (∑ sq ∈ A \ B, f sq) - (∑ sq ∈ B \ A, f sq) =
      (∑ sq ∈ A, f sq) - (∑ sq ∈ B, f sq) := by
  have hA := Finset.sum_inter_add_sum_diff A B f
  have hB := Finset.sum_inter_add_sum_diff B A f
  rw [Finset.inter_comm] at hB
  linear_combination hA - hB

/-- The accumulator effect of the update loop of
`Position::play_unchecked`: each updated pair contributes the weight-row
sums of its appeared squares minus those of its vanished squares. -/
theorem foldl_updates_accumulator (m : NnueM) (bOld bNew : BoardM)
    (ups : List (ColorT × PieceT)) (st : NnueStateM) (persp : ColorT)
    (i : Fin 256) :
    ((ups.foldl (fun st cp =>
        ((squaresOf bNew cp.1 cp.2).filter fun sq =>
          decide (sq ∉ squaresOf bOld cp.1 cp.2)).foldl
          (fun st sq => st.add m cp.1 cp.2 sq)
          (((squaresOf bOld cp.1 cp.2).filter fun sq =>
            decide (sq ∉ squaresOf bNew cp.1 cp.2)).foldl
            (fun st sq => st.sub m cp.1 cp.2 sq) st)) st).accumulator
      persp i) =
      st.accumulator persp i +
        (ups.map fun cp =>
          (∑ sq ∈ colorsPieces bNew cp.1 cp.2 \ colorsPieces bOld cp.1 cp.2,
            m.ft.weights (feature persp cp.1 cp.2 sq) i) -
          (∑ sq ∈ colorsPieces bOld cp.1 cp.2 \ colorsPieces bNew cp.1 cp.2,
            m.ft.weights (feature persp cp.1 cp.2 sq) i)).sum := by
  induction ups generalizing st with
  | nil => simp
  | cons cp rest ih =>
    simp only [List.foldl_cons, List.map_cons, List.sum_cons]
    rw [ih, foldl_add_accumulator, foldl_sub_accumulator, filter_not_mem_sum,
      filter_not_mem_sum]
    ring

/-- Frame condition: a (color, piece) pair outside the `updates` list of
`Position::play_unchecked` keeps exactly its squares across the move. -/
theorem frame_placement (b : BoardM) (mv : MoveT) (h : WfMove b mv)
    (c : ColorT) (p : PieceT) (hcp : (c, p) ∉ updatesOf b mv) (sq : SquareT) :
    (b.playUnchecked mv).placement sq = some (c, p) ↔
      b.placement sq = some (c, p) := by
  obtain ⟨moved, hfrom, hvict, hpromo, hep, hcastle⟩ := h
  have hmem : ∀ x ∈ updatesOf b mv, (c, p) ≠ x :=
    fun x hx he => hcp (he ▸ hx)
  have hiff : ∀ x y : Option (ColorT × PieceT),
      x ≠ some (c, p) → y ≠ some (c, p) →
      (x = some (c, p) ↔ y = some (c, p)) :=
    fun x y hx hy => ⟨fun hh => absurd hh hx, fun hh => absurd hh hy⟩
  have h1 : (c, p) ≠ (b.sideToMove, moved) := by
    refine hmem _ ?_
    unfold updatesOf
    rw [hfrom]
    simp
  unfold BoardM.playUnchecked
  rw [hfrom]
  dsimp only
  by_cases hcas : moved = PieceT.king ∧
      b.placement mv.toSq = some (b.sideToMove, PieceT.rook)
  · rw [if_pos hcas]
    obtain ⟨hmk, hrook⟩ := hcas
    have h2 : (c, p) ≠ (b.sideToMove, PieceT.rook) := by
      refine hmem _ ?_
      unfold updatesOf
      rw [hfrom, hrook]
      simp
    obtain ⟨hfr, htr, hdest⟩ := hcastle hmk PieceT.rook hrook
    dsimp only
    have hpik : ∀ s2 : SquareT, s2 = castleKingDest b mv ∨
        s2 = castleRookDest b mv → b.placement s2 ≠ some (c, p) := by
      intro s2 hs2
      by_cases hf : s2 = mv.fromSq
      · rw [hf, hfrom]
        intro he
        injection he with he
        exact h1 (hmk ▸ he.symm)
      · by_cases ht2 : s2 = mv.toSq
        · rw [ht2, hrook]
          intro he
          injection he with he
          exact h2 he.symm
        · rw [hdest s2 hs2 hf ht2]
          simp
    split_ifs with e1 e2 e3
    · refine hiff _ _ ?_ (e1 ▸ hpik sq (Or.inl e1))
      intro he
      injection he with he
      exact h1 (hmk ▸ he.symm)
    · refine hiff _ _ ?_ (e2 ▸ hpik sq (Or.inr e2))
      intro he
      injection he with he
      exact h2 he.symm
    · constructor
      · exact fun hf => hf.elim
      · intro he
        rcases e3 with e3 | e3
        · rw [e3, hfrom] at he
          injection he with he
          exact absurd he.symm h1
        · rw [e3, hrook] at he
          injection he with he
          exact absurd he.symm h2
    · exact Iff.rfl
  · rw [if_neg hcas]
    by_cases hepc : moved = PieceT.pawn ∧ epSquareOf b = some mv.toSq
    · rw [if_pos hepc]
      obtain ⟨hmp, hepsq⟩ := hepc
      obtain ⟨htonone, hvicpawn⟩ := hep hmp hepsq
      have h3 : (c, p) ≠ (b.sideToMove.opp, PieceT.pawn) := by
        refine hmem _ ?_
        unfold updatesOf
        rw [hfrom]
        simp [hmp, hepsq]
      dsimp only
      split_ifs with e1 e2
      · refine hiff _ _ ?_ ?_
        · intro he
          injection he with he
          exact h1 (hmp ▸ he.symm)
        · rw [e1, htonone]
          simp
      · constructor
        · exact fun hf => hf.elim
        · intro he
          rcases e2 with e2 | e2
          · rw [e2, hfrom] at he
            injection he with he
            exact absurd he.symm h1
          · rw [e2, hvicpawn] at he
            injection he with he
            exact absurd he.symm h3
      · exact Iff.rfl
    · rw [if_neg hepc]
      dsimp only
      split_ifs with e1 e2
      · refine hiff _ _ ?_ ?_
        · cases hpr : mv.promotion with
          | none =>
            simp only [hpr, Option.getD_none]
            intro he
            injection he with he
            exact h1 he.symm
          | some pr =>
            have h4 : (c, p) ≠ (b.sideToMove, pr) := by
              refine hmem _ ?_
              unfold updatesOf
              rw [hfrom, hpr]
              simp
            simp only [hpr, Option.getD_some]
            intro he
            injection he with he
            exact h4 he.symm
        · cases hto : b.placement mv.toSq with
          | none => rw [e1, hto]; simp
          | some cp2 =>
            have h5 : (c, p) ≠ cp2 := by
              refine hmem _ ?_
              unfold updatesOf
              rw [hfrom, hto]
              simp
            rw [e1, hto]
            intro he
            injection he with he
            exact h5 he.symm
      · constructor
        · exact fun hf => hf.elim
        · intro he
          rw [e2, hfrom] at he
          injection he with he
          exact absurd he.symm h1
      · exact Iff.rfl

/-- No color is its own opposite. -/
theorem ColorT.opp_ne (c : ColorT) : c.opp ≠ c := by
  cases c <;> decide

/-- A well-formed move's `updates` list never repeats a (color, piece)
pair. -/
theorem updatesOf_nodup (b : BoardM) (mv : MoveT) (h : WfMove b mv) :
    (updatesOf b mv).Nodup := by
  obtain ⟨moved, hfrom, hvict, hpromo, hep, hcastle⟩ := h
  unfold updatesOf
  rw [hfrom]
  dsimp only
  by_cases hepc : moved = PieceT.pawn ∧ epSquareOf b = some mv.toSq
  · obtain ⟨hnone, -⟩ := hep hepc.1 hepc.2
    rw [hnone, if_pos hepc]
    obtain ⟨hmp, -⟩ := hepc
    subst hmp
    cases hpr : mv.promotion with
    | none =>
      simp [List.nodup_cons, Prod.ext_iff, Ne.symm (ColorT.opp_ne b.sideToMove)]
    | some pr =>
      obtain ⟨-, hprp, -⟩ := hpromo pr hpr
      simp [List.nodup_cons, Prod.ext_iff,
        Ne.symm (ColorT.opp_ne b.sideToMove), ColorT.opp_ne b.sideToMove,
        Ne.symm hprp]
  · rw [if_neg hepc]
    cases hto : b.placement mv.toSq with
    | none =>
      cases hpr : mv.promotion with
      | none => simp
      | some pr =>
        obtain ⟨hmp, hprp, -⟩ := hpromo pr hpr
        subst hmp
        simp [List.nodup_cons, Prod.ext_iff, Ne.symm hprp]
    | some cp2 =>
      have hv := hvict cp2.1 cp2.2 (by rw [hto])
      cases hpr : mv.promotion with
      | none =>
        rcases hv with hopp | ⟨hmk, hcu, hpr2⟩
        · simp [List.nodup_cons, Prod.ext_iff, hopp,
            Ne.symm (ColorT.opp_ne b.sideToMove), ColorT.opp_ne b.sideToMove]
        · subst hmk
          simp [List.nodup_cons, Prod.ext_iff, hpr2]
      | some pr =>
        obtain ⟨hmp, hprp, -⟩ := hpromo pr hpr
        have hopp : cp2.1 = b.sideToMove.opp := by
          rcases hv with hopp | ⟨hmk, -⟩
          · exact hopp
          · rw [hmp] at hmk
            exact absurd hmk (by decide)
        subst hmp
        simp [List.nodup_cons, Prod.ext_iff, hopp, Ne.symm hprp,
          Ne.symm (ColorT.opp_ne b.sideToMove), ColorT.opp_ne b.sideToMove]

/-- The scratch accumulator as a sum over all (color, piece) pairs. -/
theorem accScratch_fintype (m : NnueM) (b : BoardM) (persp : ColorT)
    (i : Fin 256) :
    accScratch m b persp i =
      m.ft.biases i + ∑ cp : ColorT × PieceT,
        ∑ sq ∈ colorsPieces b cp.1 cp.2,
          m.ft.weights (feature persp cp.1 cp.2 sq) i := by
  unfold accScratch
  simp only [colorAll, pieceAll, List.map_cons, List.map_nil, List.sum_cons,
    List.sum_nil, squaresOf_sum]
  rw [Fintype.sum_prod_type]
  rw [(by decide :
    (Finset.univ : Finset ColorT) = {ColorT.white, ColorT.black})]
  rw [Finset.sum_insert (by decide), Finset.sum_singleton]
  rw [(by decide : (Finset.univ : Finset PieceT) =
    {PieceT.pawn, PieceT.knight, PieceT.bishop, PieceT.rook, PieceT.queen,
      PieceT.king})]
  repeat rw [Finset.sum_insert (by decide)]
  repeat rw [Finset.sum_singleton]
  ring

/-- One incremental update preserves "accumulator = scratch accumulator". -/
theorem play_unchecked_scratch (m : NnueM) (pos : PositionM) (mv : MoveT)
    (h : WfMove pos.board mv)
    (hacc : pos.nnue_state.accumulator = accScratch m pos.board) :
    (pos.play_unchecked m mv).nnue_state.accumulator =
      accScratch m (pos.board.playUnchecked mv) := by
  funext persp i
  have hfold := foldl_updates_accumulator m pos.board
    (pos.board.playUnchecked mv) (updatesOf pos.board mv) pos.nnue_state
    persp i
  show ((updatesOf pos.board mv).foldl _ pos.nnue_state).accumulator persp i
    = _
  rw [hfold, hacc, accScratch_fintype, accScratch_fintype]
  have hnd := updatesOf_nodup pos.board mv h
  rw [← List.sum_toFinset _ hnd]
  simp only [sum_sdiff_sub_sum_sdiff]
  have hUsum :
      (∑ cp ∈ (updatesOf pos.board mv).toFinset,
        ((∑ sq ∈ colorsPieces (pos.board.playUnchecked mv) cp.1 cp.2,
            m.ft.weights (feature persp cp.1 cp.2 sq) i) -
          ∑ sq ∈ colorsPieces pos.board cp.1 cp.2,
            m.ft.weights (feature persp cp.1 cp.2 sq) i)) =
      ∑ cp : ColorT × PieceT,
        ((∑ sq ∈ colorsPieces (pos.board.playUnchecked mv) cp.1 cp.2,
            m.ft.weights (feature persp cp.1 cp.2 sq) i) -
          ∑ sq ∈ colorsPieces pos.board cp.1 cp.2,
            m.ft.weights (feature persp cp.1 cp.2 sq) i) := by
    apply Finset.sum_subset (Finset.subset_univ _)
    intro cp _ hcp
    rw [List.mem_toFinset] at hcp
    have hframe : colorsPieces (pos.board.playUnchecked mv) cp.1 cp.2 =
        colorsPieces pos.board cp.1 cp.2 := by
      ext sq
      simp only [colorsPieces, Finset.mem_filter, Finset.mem_univ, true_and]
      exact frame_placement pos.board mv h cp.1 cp.2
        (by rwa [show ((cp.1, cp.2) : ColorT × PieceT) = cp from rfl]) sq
    rw [hframe, sub_self]
  rw [hUsum, Finset.sum_sub_distrib]
  ring

/-- The incremental accumulator stays equal to the scratch one along any
well-formed move sequence. -/
theorem playAll_scratch (m : NnueM) : ∀ (mvs : List MoveT) (pos : PositionM),
    pos.nnue_state.accumulator = accScratch m pos.board →
    WfSeq pos.board mvs →
    (pos.playAll m mvs).nnue_state.accumulator =
      accScratch m (pos.board.playAll mvs) := by
  intro mvs
  induction mvs with
  | nil =>
    intro pos hacc _
    exact hacc
  | cons mv rest ih =>
    intro pos hacc hwf
    show ((pos.play_unchecked m mv).playAll m rest).nnue_state.accumulator = _
    exact ih (pos.play_unchecked m mv)
      (play_unchecked_scratch m pos mv hwf.1 hacc) hwf.2

/- ### C2: incremental NNUE accumulators equal the scratch rebuild -/

/-- C2: for every model, starting board, and well-formed (in particular,
every legal) move sequence, the accumulator pair maintained incrementally
by `Position::play_unchecked` is byte-equal to the one `Position::new`
rebuilds from scratch on the final board. -/
theorem c2_nnue_incremental_equals_scratch (m : NnueM) (b0 : BoardM)
    (mvs : List MoveT) (h : WfSeq b0 mvs) :
    ((PositionM.new m b0).playAll m mvs).nnue_state.accumulator =
      (PositionM.new m (b0.playAll mvs)).nnue_state.accumulator := by
  rw [positionNew_accumulator]
  exact playAll_scratch m mvs (PositionM.new m b0)
    (positionNew_accumulator m b0) h

/-- C2 witness: a double pawn push from a three-piece position, with a
concrete (nontrivial) weight assignment. -/
theorem c2_nnue_incremental_equals_scratch_witness :
    WfSeq
      ⟨fun sq =>
        if sq = ⟨4, 1⟩ then some (.white, .pawn)
        else if sq = ⟨4, 0⟩ then some (.white, .king)
        else if sq = ⟨4, 7⟩ then some (.black, .king)
        else none, .white, none⟩
      [⟨⟨4, 1⟩, ⟨4, 3⟩, none⟩] ∧
    ((PositionM.new
        ⟨⟨fun n j => ((n + j.val : Nat) : AccEntry),
          fun j => ((j.val * 3 : Nat) : AccEntry)⟩⟩
        ⟨fun sq =>
          if sq = ⟨4, 1⟩ then some (.white, .pawn)
          else if sq = ⟨4, 0⟩ then some (.white, .king)
          else if sq = ⟨4, 7⟩ then some (.black, .king)
          else none, .white, none⟩).playAll
        ⟨⟨fun n j => ((n + j.val : Nat) : AccEntry),
          fun j => ((j.val * 3 : Nat) : AccEntry)⟩⟩
        [⟨⟨4, 1⟩, ⟨4, 3⟩, none⟩]).nnue_state.accumulator =
      (PositionM.new
        ⟨⟨fun n j => ((n + j.val : Nat) : AccEntry),
          fun j => ((j.val * 3 : Nat) : AccEntry)⟩⟩
        ((⟨fun sq =>
            if sq = ⟨4, 1⟩ then some (.white, .pawn)
            else if sq = ⟨4, 0⟩ then some (.white, .king)
            else if sq = ⟨4, 7⟩ then some (.black, .king)
            else none, .white, none⟩ : BoardM).playAll
          [⟨⟨4, 1⟩, ⟨4, 3⟩, none⟩])).nnue_state.accumulator :=
  ⟨by decide,
    c2_nnue_incremental_equals_scratch _ _ _ (by decide)⟩

/- ### Cache helper lemmas -/

/-- Packing eight bytes is injectively undone by `decodeECD`, modulo the
`u8` reduction of each field. -/
theorem decodeECD_encode (e : EncodedCacheData) :
    decodeECD e.encode =
      ⟨e.kind % 256, e.eval0 % 256, e.eval1 % 256, e.depth % 256,
        e.bmFrom % 256, e.bmTo % 256, e.bmPromo % 256, e.age % 256⟩ := by
  simp only [decodeECD, EncodedCacheData.encode, byteOf,
    EncodedCacheData.mk.injEq]
  refine ⟨?_, ?_, ?_, ?_, ?_, ?_, ?_, ?_⟩ <;> omega

/-- A marshalled entry has a zero age byte, so its packed word fits in 56
bits. -/
theorem marshall_encode_lt (d : CacheData) :
    d.marshall.encode < 2 ^ 56 := by
  have h : d.marshall.age = 0 := rfl
  simp only [EncodedCacheData.encode, h]
  have h0 := Nat.mod_lt d.marshall.kind (y := 256) (by omega)
  have h1 := Nat.mod_lt d.marshall.eval0 (y := 256) (by omega)
  have h2 := Nat.mod_lt d.marshall.eval1 (y := 256) (by omega)
  have h3 := Nat.mod_lt d.marshall.depth (y := 256) (by omega)
  have h4 := Nat.mod_lt d.marshall.bmFrom (y := 256) (by omega)
  have h5 := Nat.mod_lt d.marshall.bmTo (y := 256) (by omega)
  have h6 := Nat.mod_lt d.marshall.bmPromo (y := 256) (by omega)
  omega

/-- The top (age) byte of a word below `2^56` is zero. -/
theorem byteOf7_eq_zero {n : Nat} (h : n < 2 ^ 56) : byteOf n 7 = 0 := by
  unfold byteOf
  omega

/-- Every reachable cache state satisfies the age invariant. -/
theorem cacheReachable_inv {t : CacheTableM} (ht : CacheReachable t) :
    CacheAgeInv t := by
  induction ht with
  | new entries h1 h2 =>
    unfold CacheTableM.new_with_entries CacheAgeInv
    constructor
    · show (0 : Nat) < 256
      norm_num
    · intro s hs
      have := List.eq_of_mem_replicate hs
      subst this
      decide
  | set t boardHash ply d hply ht ih =>
    obtain ⟨hage, hdata⟩ := ih
    unfold CacheTableM.set
    dsimp only
    split_ifs with hcond
    · refine ⟨hage, ?_⟩
      intro s hs
      rcases List.mem_or_eq_of_mem_set hs with hmem | rfl
      · exact hdata s hmem
      · exact marshall_encode_lt _
    · exact ⟨hage, hdata⟩
  | clear t ht ih =>
    refine ⟨ih.1, ?_⟩
    intro s hs
    unfold CacheTableM.clear at hs
    dsimp only at hs
    rcases List.mem_map.mp hs with ⟨_, _, rfl⟩
    decide
  | age_by t plies hp ht ih =>
    refine ⟨?_, ih.2⟩
    unfold CacheTableM.age_by wrapAdd8
    dsimp only
    omega

/- ### C10: every stored entry has age 0 -/

/-- C10: `marshall` hard-codes a zero age byte, so in every reachable cache
state every non-empty slot decodes to age 0, and the stale-replacement test
`current_age.wrapping_sub(stored_age) >= 2` of `set` is simply
`current_age >= 2`. -/
theorem c10_cache_age_always_zero (t : CacheTableM)
    (ht : CacheReachable t) :
    (∀ d : CacheData, d.marshall.age = 0) ∧
    (∀ s ∈ t.table, s.is_empty = false →
      ((decodeECD s.data).unmarshall).age = 0) ∧
    (∀ s ∈ t.table,
      (2 ≤ wrapSub8 t.age (decodeECD s.data).age ↔ 2 ≤ t.age)) := by
  obtain ⟨hage, hdata⟩ := cacheReachable_inv ht
  refine ⟨fun _ => rfl, ?_, ?_⟩
  · intro s hs _
    show byteOf s.data 7 = 0
    exact byteOf7_eq_zero (hdata s hs)
  · intro s hs
    have h7 : (decodeECD s.data).age = 0 := byteOf7_eq_zero (hdata s hs)
    rw [h7]
    unfold wrapSub8
    omega

/-- C10 witness: the invariant evaluated on a small reachable state (one
slot, one `set` with a nonzero requested age, one `age_by`). -/
theorem c10_cache_age_always_zero_witness :
    (∀ d : CacheData, d.marshall.age = 0) ∧
    (∀ s ∈ (((CacheTableM.new_with_entries 1).set 123 0
        ⟨.Exact, 5, 3, 0, 1, none, 7⟩).age_by 3).table, s.is_empty = false →
      ((decodeECD s.data).unmarshall).age = 0) ∧
    (∀ s ∈ (((CacheTableM.new_with_entries 1).set 123 0
        ⟨.Exact, 5, 3, 0, 1, none, 7⟩).age_by 3).table,
      (2 ≤ wrapSub8 (((CacheTableM.new_with_entries 1).set 123 0
          ⟨.Exact, 5, 3, 0, 1, none, 7⟩).age_by 3).age
          (decodeECD s.data).age ↔
        2 ≤ (((CacheTableM.new_with_entries 1).set 123 0
          ⟨.Exact, 5, 3, 0, 1, none, 7⟩).age_by 3).age)) :=
  c10_cache_age_always_zero _
    (CacheReachable.age_by _ 3 (by decide)
      (CacheReachable.set _ 123 0 _ (by decide)
        (CacheReachable.new 1 (by decide) (by decide))))

/- ### C1: cache `get` mate-score remap -/

/-- Little-endian 2-byte round trip for `i16` evals. -/
theorem from_bytes_to_bytes {v : Int} (hv : i16Range v) :
    EvalV.from_bytes (EvalV.to_bytes v).1 (EvalV.to_bytes v).2 = v := by
  obtain ⟨hlo, hhi⟩ := hv
  unfold i16Min at hlo
  unfold i16Max at hhi
  unfold EvalV.from_bytes EvalV.to_bytes
  dsimp only
  split_ifs <;> omega

/-- `pieceOfIdx` inverts `PieceT.idx`. -/
theorem pieceOfIdx_idx (p : PieceT) : pieceOfIdx p.idx = p := by
  cases p <;> rfl

/-- Unmarshalling a marshalled-and-packed entry recovers it, with the age
zeroed, provided the fields are in their `u8`/`i16` ranges. -/
theorem unmarshall_marshall (d : CacheData) (hev : i16Range d.eval)
    (hd : d.depth ≤ 255) (hf : d.bmFrom ≤ 255) (ht : d.bmTo ≤ 255) :
    (decodeECD d.marshall.encode).unmarshall = { d with age := 0 } := by
  rw [decodeECD_encode]
  unfold EncodedCacheData.unmarshall CacheData.marshall
  dsimp only
  have hkind : d.kind.toByte % 256 = d.kind.toByte := by
    cases d.kind <;> rfl
  have hb0 : (EvalV.to_bytes d.eval).1 % 256 = (EvalV.to_bytes d.eval).1 := by
    unfold EvalV.to_bytes
    dsimp only
    omega
  have hb1 : (EvalV.to_bytes d.eval).2 % 256 = (EvalV.to_bytes d.eval).2 := by
    unfold EvalV.to_bytes
    dsimp only
    omega
  rw [hkind, hb0, hb1, from_bytes_to_bytes hev]
  have hkind2 : kindOfByte d.kind.toByte = d.kind := by
    cases d.kind <;> rfl
  rw [hkind2]
  simp only [CacheData.mk.injEq, and_true, true_and]
  refine ⟨by omega, by omega, by omega, ?_⟩
  cases hp : d.promotion with
  | none => simp
  | some p =>
    have hidx : p.idx % 256 = p.idx := by cases p <;> rfl
    have hlt : p.idx < 6 := by cases p <;> decide
    simp only [hidx, if_pos hlt, pieceOfIdx_idx]

/-- C1 counterexample: a stored `mate_in 250` probed at ply 10 remaps to
`cp 19485 = cp (20000 - 255 - 260)`, not to the claim's
`cp (20000 - 260) = cp 19740`. -/
theorem c1_cache_get_counterexample :
    (CacheTableM.get
      ⟨[⟨77 ^^^ (CacheData.marshall
          ⟨.LowerBound, EvalV.mate_in 250, 3, 4, 12, none, 0⟩).encode,
        (CacheData.marshall
          ⟨.LowerBound, EvalV.mate_in 250, 3, 4, 12, none, 0⟩).encode⟩], 0⟩
      77 10) =
      some ⟨.LowerBound, 19485, 3, 4, 12, none, 0⟩ ∧
    EvalV.kind (EvalV.mate_in 250) = .MateIn 250 ∧
    (19485 : Int) ≠ 20000 - (250 + 10) := by
  refine ⟨by decide, by decide, by decide⟩

/-- C1 (amended): probing an occupied slot that verifies against the
board's hash returns the stored entry with its eval remapped according to
`Eval::kind`'s classification of the stored raw value (distance casts
wrapping `as u8`): centipawns unchanged; mate distances increased by
`ply_index`, and downgraded to the large sign-preserving centipawn value
`20000 - 255 - p` when the remapped distance `p` no longer fits in 8
bits. -/
theorem c1_cache_get_remap (t : CacheTableM) (boardHash ply : Nat)
    (d : CacheData) (hply : ply ≤ 255) (hev : i16Range d.eval)
    (hd : d.depth ≤ 255) (hf : d.bmFrom ≤ 255) (hto : d.bmTo ≤ 255)
    (hdata : (t.slotAt boardHash).data = d.marshall.encode)
    (hxor : (t.slotAt boardHash).hashXorData =
      boardHash ^^^ d.marshall.encode)
    (hnz : d.marshall.encode ≠ 0) :
    t.get boardHash ply =
      some { d with age := 0, eval := specGetRemap d.eval ply } := by
  simp only [CacheTableM.get]
  rw [hdata, hxor, Nat.xor_cancel_right]
  rw [if_neg (by simp [hnz])]
  rw [unmarshall_marshall d hev hd hf hto]
  unfold specGetRemap
  dsimp only
  cases hk : EvalV.kind d.eval with
  | Centipawn v => rfl
  | MateIn p =>
    simp only
    split_ifs with h
    · rfl
    · simp only [Option.some.injEq, CacheData.mk.injEq, EvalV.cp,
        eq_self_iff_true, and_true, true_and]
      omega
  | MatedIn p =>
    simp only
    split_ifs with h
    · rfl
    · simp only [Option.some.injEq, CacheData.mk.injEq, EvalV.cp,
        eq_self_iff_true, and_true, true_and]
      omega

/-- C1 witness: the amended remap evaluated on a one-slot table holding a
`mate_in 250` entry probed at ply 10. -/
theorem c1_cache_get_remap_witness :
    (10 ≤ 255 ∧ i16Range (EvalV.mate_in 250)) ∧
    CacheTableM.get
      ⟨[⟨77 ^^^ (CacheData.marshall
          ⟨.LowerBound, EvalV.mate_in 250, 3, 4, 12, none, 0⟩).encode,
        (CacheData.marshall
          ⟨.LowerBound, EvalV.mate_in 250, 3, 4, 12, none, 0⟩).encode⟩], 0⟩
      77 10 =
      some { (⟨.LowerBound, EvalV.mate_in 250, 3, 4, 12, none, 0⟩ :
          CacheData) with
        age := 0, eval := specGetRemap (EvalV.mate_in 250) 10 } :=
  ⟨⟨by decide, by decide⟩,
    c1_cache_get_remap _ 77 10 _ (by decide) (by decide) (by decide)
      (by decide) (by decide) (by decide) (by decide) (by decide)⟩

/-- C4 witness: a PV node at depth 1 with one prior occurrence of the
position draws immediately. -/
theorem c4_repetition_draw_witness :
    NodeT.Pv ≠ NodeT.Root ∧
    ((if false then (1 + 1) % 256 else 1) ≠ 0) ∧
    0 < repetitionsM ([5, 9] ++ [5]) 5 10 ∧
    searchNodeEarly .Pv 1 false false [5, 9] 5 10 = .ret EvalV.DRAW :=
  ⟨by decide, by decide, by decide,
    (c4_repetition_draw .Pv 1 false [5, 9] 5 10 (by decide)).1
      (by decide) (by decide)⟩
